import Mathlib

/-!
Verification of the tapir agent session engine against its specification.

The Rust source is embedded shallowly: pure functions become Lean
functions on `List`/`Nat`/`String`, stateful loops become explicit
state-passing folds or step relations, and `serde_json::Value` becomes
an inductive `Json` type.  Machine integers are modelled as `Nat`
(no overflow is reachable at the sizes involved), and the one `f64`
computation (the compaction keep ratio) is modelled as exact rational
arithmetic, i.e. `Nat` ceiling division.
-/

set_option linter.unusedVariables false

namespace Tapir

/-- JSON values, modelling `serde_json::Value` at the level of the JSON
data model (numbers are modelled as integers, which suffices here:
no claim depends on numeric JSON payloads). -/
inductive Json : Type where
  | null : Json
  | bool : Bool → Json
  | num : Int → Json
  | str : String → Json
  | arr : List Json → Json
  | obj : List (String × Json) → Json

mutual

def Json.decEq : (a b : Json) → Decidable (a = b)
  | .null, .null => isTrue rfl
  | .null, .bool _ => isFalse nofun
  | .null, .num _ => isFalse nofun
  | .null, .str _ => isFalse nofun
  | .null, .arr _ => isFalse nofun
  | .null, .obj _ => isFalse nofun
  | .bool _, .null => isFalse nofun
  | .bool x, .bool y =>
      match instDecidableEqBool x y with
      | isTrue h => isTrue (by rw [h])
      | isFalse h => isFalse (fun he => h (by cases he; rfl))
  | .bool _, .num _ => isFalse nofun
  | .bool _, .str _ => isFalse nofun
  | .bool _, .arr _ => isFalse nofun
  | .bool _, .obj _ => isFalse nofun
  | .num _, .null => isFalse nofun
  | .num _, .bool _ => isFalse nofun
  | .num x, .num y =>
      match Int.instDecidableEq x y with
      | isTrue h => isTrue (by rw [h])
      | isFalse h => isFalse (fun he => h (by cases he; rfl))
  | .num _, .str _ => isFalse nofun
  | .num _, .arr _ => isFalse nofun
  | .num _, .obj _ => isFalse nofun
  | .str _, .null => isFalse nofun
  | .str _, .bool _ => isFalse nofun
  | .str _, .num _ => isFalse nofun
  | .str x, .str y =>
      match String.decEq x y with
      | isTrue h => isTrue (by rw [h])
      | isFalse h => isFalse (fun he => h (by cases he; rfl))
  | .str _, .arr _ => isFalse nofun
  | .str _, .obj _ => isFalse nofun
  | .arr _, .null => isFalse nofun
  | .arr _, .bool _ => isFalse nofun
  | .arr _, .num _ => isFalse nofun
  | .arr _, .str _ => isFalse nofun
  | .arr xs, .arr ys =>
      match Json.decEqList xs ys with
      | isTrue h => isTrue (by rw [h])
      | isFalse h => isFalse (fun he => h (by cases he; rfl))
  | .arr _, .obj _ => isFalse nofun
  | .obj _, .null => isFalse nofun
  | .obj _, .bool _ => isFalse nofun
  | .obj _, .num _ => isFalse nofun
  | .obj _, .str _ => isFalse nofun
  | .obj _, .arr _ => isFalse nofun
  | .obj xs, .obj ys =>
      match Json.decEqObjList xs ys with
      | isTrue h => isTrue (by rw [h])
      | isFalse h => isFalse (fun he => h (by cases he; rfl))

def Json.decEqList : (a b : List Json) → Decidable (a = b)
  | [], [] => isTrue rfl
  | [], _ :: _ => isFalse nofun
  | _ :: _, [] => isFalse nofun
  | x :: xs, y :: ys =>
      match Json.decEq x y, Json.decEqList xs ys with
      | isTrue h1, isTrue h2 => isTrue (by rw [h1, h2])
      | isFalse h1, _ => isFalse (fun he => h1 (by cases he; rfl))
      | _, isFalse h2 => isFalse (fun he => h2 (by cases he; rfl))

def Json.decEqObjList : (a b : List (String × Json)) → Decidable (a = b)
  | [], [] => isTrue rfl
  | [], _ :: _ => isFalse nofun
  | _ :: _, [] => isFalse nofun
  | (s1, j1) :: xs, (s2, j2) :: ys =>
      match String.decEq s1 s2, Json.decEq j1 j2,
          Json.decEqObjList xs ys with
      | isTrue h1, isTrue h2, isTrue h3 =>
          isTrue (by rw [h1, h2, h3])
      | isFalse h1, _, _ => isFalse (fun he => h1 (by cases he; rfl))
      | _, isFalse h2, _ => isFalse (fun he => h2 (by cases he; rfl))
      | _, _, isFalse h3 => isFalse (fun he => h3 (by cases he; rfl))

end

instance : DecidableEq Json := Json.decEq

/-- `Role` from src/types.rs. -/
inductive Role : Type where
  | user : Role
  | assistant : Role
deriving DecidableEq

/-- `ContentBlock` from src/types.rs: a tagged union of thinking,
text, tool-use and tool-result blocks. -/
inductive ContentBlock : Type where
  | thinking (thinking : String) (signature : String) : ContentBlock
  | text (text : String) : ContentBlock
  | toolUse (id : String) (name : String) (input : Json) : ContentBlock
  | toolResult (tool_use_id : String) (content : String) (is_error : Option Bool) :
      ContentBlock
deriving DecidableEq

/-- `Content` from src/types.rs: either a plain string or a sequence of
content blocks (serde untagged). -/
inductive Content : Type where
  | text (s : String) : Content
  | blocks (bs : List ContentBlock) : Content
deriving DecidableEq

/-- `Message` from src/types.rs. -/
structure Message : Type where
  role : Role
  content : Content
deriving DecidableEq

/-- `KEEP_RECENT_TOKENS` from src/agent.rs. -/
def KEEP_RECENT_TOKENS : Nat := 40000

/-- `COMPACT_THRESHOLD` from src/agent.rs. -/
def COMPACT_THRESHOLD : Nat := 160000

/-- The test `msg.role == Role::User && matches!(&msg.content, Content::Text(_))`
from `find_cut_point` in src/agent.rs: a plain-text user message. -/
def isUserText (m : Message) : Bool :=
  match m.role, m.content with
  | Role.user, Content.text _ => true
  | _, _ => false

/-- The keep count computed in `find_cut_point` (src/agent.rs):
`keep_count = ceil(len * (KEEP_RECENT_TOKENS / input_tokens)).max(4)`.
The source computes the ratio in `f64`; it is modelled here as the exact
ceiling of `len * KEEP_RECENT_TOKENS / input_tokens`. -/
def keep_count (len input_tokens : Nat) : Nat :=
  max ((len * KEEP_RECENT_TOKENS + input_tokens - 1) / input_tokens) 4

/-- The forward scan of `find_cut_point`: starting at index `i`, the
index of the first plain-text user message in `l`, if any. -/
def findFrom : List Message → Nat → Option Nat
  | [], _ => none
  | m :: rest, i => if isUserText m then some i else findFrom rest (i + 1)

/-- `find_cut_point` from src/agent.rs. -/
def find_cut_point (messages : List Message) (input_tokens : Nat) : Nat :=
  if messages.length < 6 then 0
  else
    let kc := keep_count messages.length input_tokens
    if messages.length ≤ kc then 0
    else
      let target := messages.length - kc
      match findFrom (messages.drop target) target with
      | some i => i
      | none => 0

/-- Convenience: whether index `k` of `l` holds a plain-text user message. -/
def textAt (l : List Message) (k : Nat) : Bool :=
  match l.get? k with
  | some m => isUserText m
  | none => false

theorem findFrom_some {l : List Message} {i r : Nat}
    (h : findFrom l i = some r) :
    i ≤ r ∧ r < i + l.length ∧ textAt l (r - i) = true ∧
      ∀ j, i ≤ j → j < r → textAt l (j - i) = false := by
  induction l generalizing i with
  | nil => simp [findFrom] at h
  | cons m rest ih =>
    by_cases hm : isUserText m
    · simp [findFrom, hm] at h
      subst h
      refine ⟨le_refl _, by simp, by simp [textAt, hm], ?_⟩
      intro j hj1 hj2
      omega
    · simp only [findFrom, hm, if_false] at h
      obtain ⟨h1, h2, h3, h4⟩ := ih h
      refine ⟨by omega, by simp; omega, ?_, ?_⟩
      · have hri : r - i = (r - (i + 1)) + 1 := by omega
        rw [hri]
        simpa [textAt] using h3
      · intro j hj1 hj2
        rcases Nat.eq_or_lt_of_le hj1 with hji | hji
        · subst hji
          simp [textAt, Bool.of_not_eq_true hm]
        · have hji1 : i + 1 ≤ j := hji
          have := h4 j hji1 hj2
          have hjj : j - i = (j - (i + 1)) + 1 := by omega
          rw [hjj]
          simpa [textAt] using this

theorem findFrom_none {l : List Message} {i : Nat}
    (h : findFrom l i = none) :
    ∀ k, textAt l k = false := by
  induction l generalizing i with
  | nil => intro k; simp [textAt]
  | cons m rest ih =>
    by_cases hm : isUserText m
    · simp [findFrom, hm] at h
    · simp only [findFrom, hm, if_false] at h
      intro k
      cases k with
      | zero => simp [textAt, Bool.of_not_eq_true hm]
      | succ k => simpa [textAt] using ih h k

theorem textAt_drop (H : List Message) (t k : Nat) :
    textAt (H.drop t) k = textAt H (t + k) := by
  simp [textAt, List.getElem?_drop]

/-- Full case analysis of `find_cut_point`, following the source: skip
for short histories, skip when the keep count retains everything,
otherwise scan forward from `len - keep_count` for a plain-text user
message and return its index (0 when the scan fails). -/
theorem find_cut_point_spec_cases (H : List Message) (T : Nat) :
    (H.length < 6 ∧ find_cut_point H T = 0) ∨
    (6 ≤ H.length ∧ H.length ≤ keep_count H.length T ∧
      find_cut_point H T = 0) ∨
    (6 ≤ H.length ∧ keep_count H.length T < H.length ∧
      (((∀ j, H.length - keep_count H.length T ≤ j → textAt H j = false) ∧
          find_cut_point H T = 0) ∨
        (H.length - keep_count H.length T ≤ find_cut_point H T ∧
          find_cut_point H T < H.length ∧
          textAt H (find_cut_point H T) = true ∧
          ∀ j, H.length - keep_count H.length T ≤ j →
            j < find_cut_point H T → textAt H j = false))) := by
  by_cases h6 : H.length < 6
  · left
    exact ⟨h6, by simp [find_cut_point, h6]⟩
  · by_cases hk : H.length ≤ keep_count H.length T
    · right; left
      exact ⟨by omega, hk, by simp [find_cut_point, h6, hk]⟩
    · right; right
      refine ⟨by omega, by omega, ?_⟩
      cases hmatch : findFrom (H.drop (H.length - keep_count H.length T))
          (H.length - keep_count H.length T) with
      | none =>
        left
        constructor
        · intro j hj
          have hall := findFrom_none hmatch (j - (H.length - keep_count H.length T))
          rw [textAt_drop] at hall
          have : H.length - keep_count H.length T +
              (j - (H.length - keep_count H.length T)) = j := by omega
          rwa [this] at hall
        · simp [find_cut_point, h6, hk, hmatch]
      | some i =>
        right
        obtain ⟨ha, hb, hc, hd⟩ := findFrom_some hmatch
        have hlen : (H.drop (H.length - keep_count H.length T)).length =
            H.length - (H.length - keep_count H.length T) :=
          List.length_drop _ _
        have hres : find_cut_point H T = i := by
          simp [find_cut_point, h6, hk, hmatch]
        rw [textAt_drop] at hc
        have hci : H.length - keep_count H.length T +
            (i - (H.length - keep_count H.length T)) = i := by omega
        rw [hci] at hc
        refine ⟨by omega, by omega, by rwa [hres], ?_⟩
        intro j hj1 hj2
        rw [hres] at hj2
        have := hd j hj1 hj2
        rw [textAt_drop] at this
        have hcj : H.length - keep_count H.length T +
            (j - (H.length - keep_count H.length T)) = j := by omega
        rwa [hcj] at this

/-- C1 (amended): for every history `H` and positive token count `T`,
the cut point is 0 if `H` has fewer than 6 messages; otherwise, with
`keep_count = max 4 ⌈|H| * 40000 / T⌉`, it is 0 if `keep_count ≥ |H|`;
otherwise it is the smallest index `i ≥ |H| - keep_count` holding a
plain-text user message, or 0 if no such index exists.  The keep count
is never below 4, a non-zero cut point lands on a plain-text user
message, and for every NONEMPTY history the result is strictly below
`|H|` (the original claim asserted this for every history; it fails for
the empty history, where both sides are 0). -/
theorem find_cut_point_spec (H : List Message) (T : Nat) (hT : 0 < T) :
    (H.length < 6 → find_cut_point H T = 0) ∧
    (6 ≤ H.length → H.length ≤ keep_count H.length T →
      find_cut_point H T = 0) ∧
    (6 ≤ H.length → keep_count H.length T < H.length →
      ((∃ i, H.length - keep_count H.length T ≤ i ∧ textAt H i = true ∧
          (∀ j, H.length - keep_count H.length T ≤ j → j < i →
            textAt H j = false) ∧
          find_cut_point H T = i) ∨
        ((∀ j, H.length - keep_count H.length T ≤ j → textAt H j = false) ∧
          find_cut_point H T = 0))) ∧
    4 ≤ keep_count H.length T ∧
    (H ≠ [] → find_cut_point H T < H.length) ∧
    (find_cut_point H T ≠ 0 → textAt H (find_cut_point H T) = true) := by
  have hcases := find_cut_point_spec_cases H T
  refine ⟨?_, ?_, ?_, le_max_right _ _, ?_, ?_⟩
  · intro h
    rcases hcases with ⟨_, h0⟩ | ⟨h6, _, _⟩ | ⟨h6, _, _⟩ <;> first | exact h0 | omega
  · intro h6 hk
    rcases hcases with ⟨h5, _⟩ | ⟨_, _, h0⟩ | ⟨_, hlt, _⟩
    · omega
    · exact h0
    · omega
  · intro h6 hlt
    rcases hcases with ⟨h5, _⟩ | ⟨_, hk, _⟩ | ⟨_, _, hnone | ⟨hi1, hi2, hi3, hi4⟩⟩
    · omega
    · omega
    · exact Or.inr hnone
    · exact Or.inl ⟨find_cut_point H T, hi1, hi3, hi4, rfl⟩
  · intro hne
    have hpos : 0 < H.length := List.length_pos.mpr hne
    rcases hcases with ⟨_, h0⟩ | ⟨_, _, h0⟩ | ⟨_, _, ⟨_, h0⟩ | ⟨_, hlt, _⟩⟩ <;>
      omega
  · intro hnz
    rcases hcases with ⟨_, h0⟩ | ⟨_, _, h0⟩ | ⟨_, _, ⟨_, h0⟩ | ⟨_, _, htxt, _⟩⟩ <;>
      first | omega | assumption

/-- C1 counterexample to the original claim: for the empty history the
cut point is 0, which is not strictly less than the history length 0,
refuting the clause that the result is always strictly less than the
number of messages. -/
theorem find_cut_point_empty_not_lt :
    find_cut_point [] 1 = 0 ∧
      ¬ find_cut_point [] 1 < ([] : List Message).length := by
  constructor
  · rfl
  · simp [find_cut_point]

/-- C1 witness: the amended theorem applied at a concrete 6-message
history and token count 200000 (keep count 4, cut point 2). -/
theorem find_cut_point_spec_witness :
    0 < 200000 ∧
      find_cut_point
        [⟨Role.user, Content.text "a"⟩, ⟨Role.assistant, Content.text "b"⟩,
         ⟨Role.user, Content.text "c"⟩, ⟨Role.assistant, Content.text "d"⟩,
         ⟨Role.user, Content.text "e"⟩, ⟨Role.assistant, Content.text "f"⟩]
        200000 <
      ([⟨Role.user, Content.text "a"⟩, ⟨Role.assistant, Content.text "b"⟩,
        ⟨Role.user, Content.text "c"⟩, ⟨Role.assistant, Content.text "d"⟩,
        ⟨Role.user, Content.text "e"⟩,
        ⟨Role.assistant, Content.text "f"⟩] : List Message).length :=
  ⟨by decide,
    (find_cut_point_spec
      [⟨Role.user, Content.text "a"⟩, ⟨Role.assistant, Content.text "b"⟩,
       ⟨Role.user, Content.text "c"⟩, ⟨Role.assistant, Content.text "d"⟩,
       ⟨Role.user, Content.text "e"⟩, ⟨Role.assistant, Content.text "f"⟩]
      200000 (by decide)).2.2.2.2.1 (by decide)⟩

/-!
## src/util.rs: byte-capped display truncation

Rust `&str` values are modelled as lists of characters; the byte index
arithmetic of the source works on the UTF-8 byte length
(`Char.utf8Size`).  Validity of the result (never splitting a UTF-8
character) is by construction in this model: every produced value is a
whole-character prefix followed by whole characters of the marker.
-/

/-- UTF-8 byte length of a string (Rust `str::len`). -/
def byteLen (s : List Char) : Nat := (s.map Char.utf8Size).sum

/-- Rust `str::is_char_boundary`: for a valid UTF-8 string, `i` is a
character boundary exactly when it is the byte length of some prefix
of whole characters. -/
def isCharBoundary (s : List Char) (i : Nat) : Bool :=
  (List.range (s.length + 1)).any (fun k => byteLen (s.take k) == i)

/-- The `while pos > 0 && !s.is_char_boundary(pos) { pos -= 1 }` loop of
`floor_char_boundary` (src/util.rs). -/
def floorLoop (s : List Char) : Nat → Nat
  | 0 => 0
  | pos + 1 => if isCharBoundary s (pos + 1) then pos + 1 else floorLoop s pos

/-- `floor_char_boundary` from src/util.rs: the largest char boundary
at most `i`, with indices at or beyond the length clamped to the
length. -/
def floor_char_boundary (s : List Char) (i : Nat) : Nat :=
  if byteLen s ≤ i then byteLen s else floorLoop s i

/-- The byte slice `&s[..e]` for a boundary index `e`: take characters
while their cumulative byte length stays within `e`. -/
def takeBytes : List Char → Nat → List Char
  | [], _ => []
  | c :: rest, e =>
      if c.utf8Size ≤ e then c :: takeBytes rest (e - c.utf8Size) else []

/-- `truncate` from src/util.rs. -/
def truncate (s : List Char) (max : Nat) : List Char :=
  if byteLen s ≤ max then s
  else
    takeBytes s (floor_char_boundary s max) ++
      ("...\n(truncated, " ++ toString (byteLen s) ++ " bytes total)").data

/-- `truncate` lifted back to `String`, as used on tool output in
run_session (src/agent.rs) with max = 50000. -/
def truncateStr (s : String) (max : Nat) : String :=
  String.mk (truncate s.data max)

theorem isCharBoundary_iff (s : List Char) (i : Nat) :
    isCharBoundary s i = true ↔ ∃ k, k ≤ s.length ∧ byteLen (s.take k) = i := by
  simp only [isCharBoundary, List.any_eq_true, List.mem_range, beq_iff_eq]
  constructor
  · rintro ⟨k, hk, hb⟩
    exact ⟨k, by omega, hb⟩
  · rintro ⟨k, hk, hb⟩
    exact ⟨k, by omega, hb⟩

theorem isCharBoundary_zero (s : List Char) : isCharBoundary s 0 = true := by
  rw [isCharBoundary_iff]
  exact ⟨0, Nat.zero_le _, rfl⟩

theorem floorLoop_le (s : List Char) (i : Nat) : floorLoop s i ≤ i := by
  induction i with
  | zero => simp [floorLoop]
  | succ p ih =>
    simp only [floorLoop]
    split
    · exact le_refl _
    · omega

theorem floorLoop_isBoundary (s : List Char) (i : Nat) :
    isCharBoundary s (floorLoop s i) = true := by
  induction i with
  | zero => simpa [floorLoop] using isCharBoundary_zero s
  | succ p ih =>
    simp only [floorLoop]
    split
    · assumption
    · exact ih

theorem floorLoop_maximal (s : List Char) (i b : Nat)
    (hb : isCharBoundary s b = true) (hbi : b ≤ i) : b ≤ floorLoop s i := by
  induction i with
  | zero => omega
  | succ p ih =>
    simp only [floorLoop]
    split
    · omega
    · rcases Nat.eq_or_lt_of_le hbi with h | h
      · subst h; simp_all
      · exact ih (by omega)

theorem takeBytes_take (s : List Char) (k : Nat) :
    takeBytes s (byteLen (s.take k)) = s.take k := by
  induction s generalizing k with
  | nil => simp [takeBytes]
  | cons c rest ih =>
    cases k with
    | zero =>
      have hpos := Char.utf8Size_pos c
      show takeBytes (c :: rest) (byteLen ([] : List Char)) = []
      simp only [byteLen, List.map_nil, List.sum_nil, takeBytes]
      rw [if_neg (by omega)]
    | succ k =>
      show takeBytes (c :: rest) (byteLen (c :: rest.take k)) = c :: rest.take k
      simp only [byteLen, List.map_cons, List.sum_cons, takeBytes]
      rw [if_pos (by omega), Nat.add_sub_cancel_left]
      exact congrArg (c :: ·) (ih k)

/-- C10: `truncate` is total and never splits a UTF-8 character: a
string of at most `max` bytes is returned unchanged; otherwise the
result is the whole-character prefix of `s` ending at the largest
character boundary not exceeding `max`, followed by the marker that
reports the total byte count.  In the char-list model the output is a
list of whole characters by construction, so the 50000-byte display
cap applied to successful tool results cannot panic or produce invalid
UTF-8. -/
theorem truncate_spec (s : List Char) (max : Nat) :
    (byteLen s ≤ max → truncate s max = s) ∧
    (max < byteLen s →
      ∃ k, k ≤ s.length ∧
        truncate s max =
          s.take k ++
            ("...\n(truncated, " ++ toString (byteLen s) ++
              " bytes total)").data ∧
        byteLen (s.take k) ≤ max ∧
        isCharBoundary s (byteLen (s.take k)) = true ∧
        ∀ b, isCharBoundary s b = true → b ≤ max →
          b ≤ byteLen (s.take k)) := by
  constructor
  · intro h; simp [truncate, h]
  · intro h
    have hnot : ¬ byteLen s ≤ max := by omega
    have hfb : floor_char_boundary s max = floorLoop s max := by
      simp [floor_char_boundary, hnot]
    have hbd := floorLoop_isBoundary s max
    obtain ⟨k, hk, hbk⟩ := (isCharBoundary_iff s (floorLoop s max)).mp hbd
    refine ⟨k, hk, ?_, ?_, ?_, ?_⟩
    · simp only [truncate, if_neg hnot, hfb, ← hbk, takeBytes_take]
    · rw [hbk]; exact floorLoop_le s max
    · rw [hbk]; exact hbd
    · intro b hb hbm
      rw [hbk]
      exact floorLoop_maximal s max b hb hbm

/-- C10 witness: `truncate` at a concrete short string is the identity. -/
theorem truncate_spec_witness :
    byteLen "hi".data ≤ 10 ∧ truncate "hi".data 10 = "hi".data :=
  ⟨by decide, (truncate_spec "hi".data 10).1 (by decide)⟩

/-!
## src/agent.rs: compaction (frame effect of `compact`)
-/

/-- The fixed acknowledgement text pushed by `compact` (src/agent.rs). -/
def compactAck : String := "Understood, continuing from where we left off."

/-- The context marker wrapping of the summary in `compact`
(src/agent.rs): `format!("<context>\n{summary}\n</context>")`. -/
def contextWrap (summary : String) : String :=
  "<context>\n" ++ summary ++ "\n</context>"

/-- The history surgery of `compact` (src/agent.rs) once the one-shot
summarization request has succeeded with text `summary`:
`split_off(cut)` / `clear` / push the two synthetic messages / extend
with the kept suffix. -/
def compactReplace (messages : List Message) (cut : Nat)
    (summary : String) : List Message :=
  Message.mk Role.user (Content.text (contextWrap summary)) ::
    Message.mk Role.assistant (Content.text compactAck) ::
      messages.drop cut

/-- `compact` from src/agent.rs as a function of the history, the last
input-token count and the summary produced by the (external)
summarization request: a zero cut point leaves the history unchanged. -/
def compact (messages : List Message) (input_tokens : Nat)
    (summary : String) : List Message :=
  let cut := find_cut_point messages input_tokens
  if cut = 0 then messages else compactReplace messages cut summary

/-- C6: when summarization succeeds with text `S` and the cut point `c`
satisfies `0 < c < |H|`, compaction produces exactly the synthetic
user message wrapping `S` in the context marker, then the fixed
acknowledgement assistant message, then `H[c], ..., H[|H|-1]`
unchanged; the new length is `|H| - c + 2` and every message at or
after the cut point is preserved verbatim. -/
theorem compactReplace_spec (H : List Message) (c : Nat) (S : String)
    (h1 : 0 < c) (h2 : c < H.length) :
    compactReplace H c S =
      Message.mk Role.user (Content.text (contextWrap S)) ::
        Message.mk Role.assistant (Content.text compactAck) :: H.drop c ∧
    (compactReplace H c S).length = H.length - c + 2 ∧
    ∀ i, c ≤ i → i < H.length →
      (compactReplace H c S).get? (i - c + 2) = H.get? i := by
  refine ⟨rfl, ?_, ?_⟩
  · simp only [compactReplace, List.length_cons, List.length_drop]
  · intro i hi1 hi2
    show (H.drop c).get? (i - c) = H.get? i
    simp only [List.get?_eq_getElem?, List.getElem?_drop]
    congr 1
    omega

/-- C6 witness: the theorem applied at a concrete 3-message history
with cut point 1. -/
theorem compactReplace_spec_witness :
    0 < 1 ∧ 1 < ([⟨Role.user, Content.text "a"⟩,
      ⟨Role.assistant, Content.text "b"⟩,
      ⟨Role.user, Content.text "c"⟩] : List Message).length ∧
    (compactReplace [⟨Role.user, Content.text "a"⟩,
        ⟨Role.assistant, Content.text "b"⟩,
        ⟨Role.user, Content.text "c"⟩] 1 "sum").length = 3 - 1 + 2 :=
  ⟨by decide, by decide,
    (compactReplace_spec [⟨Role.user, Content.text "a"⟩,
      ⟨Role.assistant, Content.text "b"⟩,
      ⟨Role.user, Content.text "c"⟩] 1 "sum" (by decide) (by decide)).2.1⟩

/-!
## src/error.rs and src/api.rs: error taxonomy and bounded retry

`send_stream` is modelled over an oracle giving the outcome of
`try_send` on each (1-based) attempt; the network and the returned
reader are abstracted into the type parameter.  The model returns the
final result, the number of attempts made, and the list of delays
slept before each retry, in order.
-/

/-- `Error` from src/error.rs. -/
inductive Error : Type where
  | noApiKey : Error
  | http (msg : String) : Error
  | api (status : Nat) (message : String) (retry_after : Option Nat) : Error
  | json (msg : String) : Error
  | tool (name : String) (message : String) : Error
  | ioErr (msg : String) : Error
  | security (msg : String) : Error
deriving DecidableEq

/-- `MAX_ATTEMPTS` from src/api.rs. -/
def MAX_ATTEMPTS : Nat := 3

/-- `is_retryable` from src/api.rs. -/
def is_retryable : Error → Bool
  | .http _ => true
  | .api status _ _ =>
      status == 429 || status == 500 || status == 502 ||
        status == 503 || status == 529
  | _ => false

/-- `retry_delay` from src/api.rs: the server-supplied retry-after
verbatim when present, otherwise `1 << (attempt - 1)` seconds. -/
def retry_delay (err : Error) (attempt : Nat) : Nat :=
  match err with
  | .api _ _ (some secs) => secs
  | _ => 2 ^ (attempt - 1)

/-- The `for attempt in 1..=MAX_ATTEMPTS` loop of `send_stream`
(src/api.rs), from attempt number `attempt`: result, attempt count
used, and delays slept. -/
def sendStreamGo (tryAttempt : Nat → Except Error α) (attempt : Nat) :
    Except Error α × Nat × List Nat :=
  match tryAttempt attempt with
  | .ok r => (.ok r, attempt, [])
  | .error e =>
      if h : attempt < MAX_ATTEMPTS ∧ is_retryable e then
        let rest := sendStreamGo tryAttempt (attempt + 1)
        (rest.1, rest.2.1, retry_delay e attempt :: rest.2.2)
      else (.error e, attempt, [])
termination_by MAX_ATTEMPTS - attempt
decreasing_by simp only [MAX_ATTEMPTS] at h ⊢; omega

/-- `send_stream` from src/api.rs: the request body is serialized once
(`serialized` is the outcome of `serde_json::to_string`); a
serialization failure propagates before any attempt. -/
def send_stream (serialized : Except Error Unit)
    (tryAttempt : Nat → Except Error α) : Except Error α × Nat × List Nat :=
  match serialized with
  | .error e => (.error e, 0, [])
  | .ok _ => sendStreamGo tryAttempt 1

theorem sendStreamGo_ok {α : Type} {tryAttempt : Nat → Except Error α}
    {a : Nat} {r : α} (h : tryAttempt a = .ok r) :
    sendStreamGo tryAttempt a = (.ok r, a, []) := by
  rw [sendStreamGo, h]

theorem sendStreamGo_err_retry {α : Type} {tryAttempt : Nat → Except Error α}
    {a : Nat} {e : Error} (h : tryAttempt a = .error e)
    (hc : a < MAX_ATTEMPTS ∧ is_retryable e) :
    sendStreamGo tryAttempt a =
      ((sendStreamGo tryAttempt (a + 1)).1,
        (sendStreamGo tryAttempt (a + 1)).2.1,
        retry_delay e a :: (sendStreamGo tryAttempt (a + 1)).2.2) := by
  rw [sendStreamGo, h]
  simp only [dif_pos hc]

theorem sendStreamGo_err_stop {α : Type} {tryAttempt : Nat → Except Error α}
    {a : Nat} {e : Error} (h : tryAttempt a = .error e)
    (hc : ¬(a < MAX_ATTEMPTS ∧ is_retryable e)) :
    sendStreamGo tryAttempt a = (.error e, a, []) := by
  rw [sendStreamGo, h]
  simp only [dif_neg hc]

theorem sendStreamGo_spec {α : Type} (tryAttempt : Nat → Except Error α) :
    ∀ fuel a, MAX_ATTEMPTS - a = fuel → 1 ≤ a → a ≤ MAX_ATTEMPTS →
    a ≤ (sendStreamGo tryAttempt a).2.1 ∧
    (sendStreamGo tryAttempt a).2.1 ≤ MAX_ATTEMPTS ∧
    (sendStreamGo tryAttempt a).1 = tryAttempt (sendStreamGo tryAttempt a).2.1 ∧
    (sendStreamGo tryAttempt a).2.2.length = (sendStreamGo tryAttempt a).2.1 - a ∧
    (∀ k, a ≤ k → k < (sendStreamGo tryAttempt a).2.1 →
      ∃ e, tryAttempt k = .error e ∧ is_retryable e = true ∧
        (sendStreamGo tryAttempt a).2.2.get? (k - a) =
          some (retry_delay e k)) ∧
    (∀ e, (sendStreamGo tryAttempt a).1 = .error e →
      is_retryable e = false ∨ (sendStreamGo tryAttempt a).2.1 = MAX_ATTEMPTS) := by
  intro fuel
  induction fuel with
  | zero =>
    intro a hfa h1 h3
    have ha : a = MAX_ATTEMPTS := by omega
    subst ha
    cases htry : tryAttempt MAX_ATTEMPTS with
    | ok r =>
      rw [sendStreamGo_ok htry]
      refine ⟨le_refl _, le_refl _, by rw [htry], by simp, ?_, ?_⟩
      · intro k hk1 hk2; simp only at hk2; omega
      · intro e he; simp at he
    | error e =>
      rw [sendStreamGo_err_stop htry (by simp)]
      refine ⟨le_refl _, le_refl _, by rw [htry], by simp, ?_, ?_⟩
      · intro k hk1 hk2; simp only at hk2; omega
      · intro e' he'
        right; rfl
  | succ fuel ih =>
    intro a hfa h1 h3
    cases htry : tryAttempt a with
    | ok r =>
      rw [sendStreamGo_ok htry]
      refine ⟨le_refl _, h3, by rw [htry], by simp, ?_, ?_⟩
      · intro k hk1 hk2; simp only at hk2; omega
      · intro e he; simp at he
    | error e =>
      by_cases hcond : a < MAX_ATTEMPTS ∧ is_retryable e
      · rw [sendStreamGo_err_retry htry hcond]
        obtain ⟨ih1, ih2, ih3, ih4, ih5, ih6⟩ :=
          ih (a + 1) (by omega) (by omega) (by omega)
        refine ⟨by simp only; omega, by simpa using ih2,
          by simpa using ih3, ?_, ?_, by simpa using ih6⟩
        · simp only [List.length_cons, ih4]
          omega
        · intro k hk1 hk2
          simp only at hk2
          rcases Nat.eq_or_lt_of_le hk1 with hka | hka
          · subst hka
            refine ⟨e, htry, hcond.2, ?_⟩
            simp
          · obtain ⟨e', he'1, he'2, he'3⟩ := ih5 k (by omega) (by simpa using hk2)
            refine ⟨e', he'1, he'2, ?_⟩
            have hidx : k - a = (k - (a + 1)) + 1 := by omega
            rw [hidx]
            simpa using he'3
      · rw [sendStreamGo_err_stop htry hcond]
        refine ⟨le_refl _, h3, by rw [htry], by simp, ?_, ?_⟩
        · intro k hk1 hk2; simp only at hk2; omega
        · intro e' he'
          simp only [Except.error.injEq] at he'
          subst he'
          rcases Nat.lt_or_ge a MAX_ATTEMPTS with hlt | hge
          · left
            by_contra hr
            exact hcond ⟨hlt, by simpa using hr⟩
          · right; omega

/-- C3: `send_stream` makes between 1 and 3 attempts; its result is the
outcome of the last attempt made; it retries exactly on attempts that
failed with a retryable error (transport errors and API statuses
429/500/502/503/529) while fewer than 3 attempts were used, sleeping
the server-supplied retry-after verbatim when present and otherwise
`2^(attempt-1)` seconds; non-retryable failures (including JSON
serialization failures, which propagate before any attempt) and a
retryable failure on the third attempt propagate as the final error. -/
theorem send_stream_spec {α : Type} (tryAttempt : Nat → Except Error α)
    (serialized : Except Error Unit) :
    (∀ e, serialized = .error e →
      send_stream serialized tryAttempt = (.error e, 0, [])) ∧
    (serialized = .ok () →
      1 ≤ (send_stream serialized tryAttempt).2.1 ∧
      (send_stream serialized tryAttempt).2.1 ≤ 3 ∧
      (send_stream serialized tryAttempt).1 =
        tryAttempt (send_stream serialized tryAttempt).2.1 ∧
      (send_stream serialized tryAttempt).2.2.length =
        (send_stream serialized tryAttempt).2.1 - 1 ∧
      (∀ k, 1 ≤ k → k < (send_stream serialized tryAttempt).2.1 →
        ∃ e, tryAttempt k = .error e ∧ is_retryable e = true ∧
          (send_stream serialized tryAttempt).2.2.get? (k - 1) =
            some (retry_delay e k)) ∧
      (∀ e, (send_stream serialized tryAttempt).1 = .error e →
        is_retryable e = false ∨
          (send_stream serialized tryAttempt).2.1 = 3)) ∧
    (∀ m, is_retryable (.http m) = true) ∧
    (∀ st m ra, is_retryable (.api st m ra) = true ↔
      st = 429 ∨ st = 500 ∨ st = 502 ∨ st = 503 ∨ st = 529) ∧
    (∀ m, is_retryable (.json m) = false) ∧
    (∀ st m s k, retry_delay (.api st m (some s)) k = s) ∧
    (∀ m k, retry_delay (.http m) k = 2 ^ (k - 1)) ∧
    (∀ st m k, retry_delay (.api st m none) k = 2 ^ (k - 1)) := by
  refine ⟨?_, ?_, ?_, ?_, ?_, ?_, ?_, ?_⟩
  · intro e he
    subst he
    rfl
  · intro hok
    subst hok
    have h := sendStreamGo_spec tryAttempt (MAX_ATTEMPTS - 1) 1 rfl
      (le_refl _) (by simp [MAX_ATTEMPTS])
    exact h
  · intro m; rfl
  · intro st m ra
    simp only [is_retryable, Bool.or_eq_true, beq_iff_eq]
    tauto
  · intro m; rfl
  · intro st m s k; rfl
  · intro m k; rfl
  · intro st m k; rfl

/-- C3 witness: a first attempt failing with a rate-limit error
carrying retry-after 7 and a second attempt succeeding: 2 attempts,
one sleep of exactly 7 seconds. -/
theorem send_stream_spec_witness :
    (Except.ok () : Except Error Unit) = Except.ok () ∧
      1 ≤ (send_stream (Except.ok ())
        (fun k => if k = 1 then Except.error (Error.api 429 "rate" (some 7))
          else Except.ok 42)).2.1 :=
  ⟨rfl,
    ((send_stream_spec
      (fun k => if k = 1 then Except.error (Error.api 429 "rate" (some 7))
        else Except.ok (42 : Nat))
      (Except.ok ())).2.1 rfl).1⟩

/-!
## src/agent.rs: tool dispatch (fan-out/fan-in inside run_session)

One scoped worker thread is spawned per tool call and the handles are
joined in spawn order, so the result list is indexed by the input
order, independent of completion order.  The worker body is modelled
as a pure function of the cancellation flag observed at worker start
and of the outcome of the external collaborator `tool::execute`.
-/

/-- Outcome of the external tool-execution collaborator
(`tool::execute`) for one call. -/
inductive ToolOutcome : Type where
  | ok (out : String) : ToolOutcome
  | err (msg : String) : ToolOutcome
deriving DecidableEq

/-- The worker closure spawned per tool call in run_session
(src/agent.rs): check the cancellation flag, then execute and map the
outcome, truncating successful output to 50000 bytes for display. -/
def toolWorker (sig : Bool) (exec : String → Json → ToolOutcome)
    (call : String × String × Json) : ContentBlock :=
  if sig then ContentBlock.toolResult call.1 "(cancelled)" (some true)
  else
    match exec call.2.1 call.2.2 with
    | .ok out => ContentBlock.toolResult call.1 (truncateStr out 50000) none
    | .err msg => ContentBlock.toolResult call.1 msg (some true)

/-- The invocations of `tool::execute` a single worker performs: none
when the cancellation flag is set at worker start. -/
def toolWorkerCalls (sig : Bool) (call : String × String × Json) :
    List (String × Json) :=
  if sig then [] else [(call.2.1, call.2.2)]

/-- Tool dispatch from run_session (src/agent.rs): spawn one worker per
call and join the handles in spawn order. -/
def dispatchTools (sig : Bool) (exec : String → Json → ToolOutcome)
    (calls : List (String × String × Json)) : List ContentBlock :=
  calls.map (toolWorker sig exec)

/-- All invocations of `tool::execute` performed by a dispatch. -/
def dispatchCalls (sig : Bool)
    (calls : List (String × String × Json)) : List (String × Json) :=
  (calls.map (toolWorkerCalls sig)).flatten

/-- The `tool_use_id` carried by a result block, if it is one. -/
def resultId : ContentBlock → Option String
  | .toolResult id _ _ => some id
  | _ => none

/-- C4: dispatching an ordered list of `n` tool calls returns exactly
`n` ToolResult blocks, and for every `k` the `k`-th returned block is
the result of the `k`-th call — in particular its `tool_use_id` is the
`k`-th call id.  The fan-in joins worker handles in spawn order, so
the output depends only on each call's own outcome, never on
completion order. -/
theorem dispatchTools_order_spec (sig : Bool)
    (exec : String → Json → ToolOutcome)
    (calls : List (String × String × Json)) :
    (dispatchTools sig exec calls).length = calls.length ∧
    ∀ k, k < calls.length →
      (dispatchTools sig exec calls).get? k =
        (calls.get? k).map (toolWorker sig exec) ∧
      ((dispatchTools sig exec calls).get? k).bind resultId =
        (calls.get? k).map (fun c => c.1) := by
  refine ⟨by simp [dispatchTools], ?_⟩
  intro k hk
  constructor
  · simp [dispatchTools]
  · simp only [dispatchTools, List.get?_eq_getElem?, List.getElem?_map]
    cases hc : calls[k]? with
    | none => rfl
    | some c =>
      cases hsig : sig with
      | true => rfl
      | false =>
        cases hx : exec c.2.1 c.2.2 <;>
          simp [toolWorker, resultId, hx]

/-- C4 witness: dispatch of two concrete calls pairs ids by position. -/
theorem dispatchTools_order_spec_witness :
    (0 : Nat) < 2 ∧
      ((dispatchTools false (fun _ _ => ToolOutcome.ok "out")
          [("id1", "bash", Json.obj []), ("id2", "read_file", Json.obj [])]).get? 0).bind
          resultId =
        some "id1" :=
  ⟨by decide,
    by
      have h := (dispatchTools_order_spec false (fun _ _ => ToolOutcome.ok "out")
        [("id1", "bash", Json.obj []), ("id2", "read_file", Json.obj [])]).2 0
        (by decide)
      rw [h.2]
      rfl⟩

/-- C5: if the cancellation flag is set before dispatch starts (so every
worker observes it at start), every one of the `n ≥ 1` results is the
cancelled, error-flagged ToolResult for its call, and `tool::execute`
is never invoked. -/
theorem dispatchTools_cancelled_spec
    (exec : String → Json → ToolOutcome)
    (calls : List (String × String × Json)) (hn : 1 ≤ calls.length) :
    dispatchTools true exec calls =
      calls.map (fun c => ContentBlock.toolResult c.1 "(cancelled)" (some true)) ∧
    dispatchCalls true calls = [] := by
  constructor
  · simp [dispatchTools, toolWorker]
  · simp [dispatchCalls, toolWorkerCalls]

/-- C5 witness: two calls with the flag set yield two cancelled results
and no collaborator invocation. -/
theorem dispatchTools_cancelled_spec_witness :
    1 ≤ ([("id1", "bash", Json.obj []),
          ("id2", "read_file", Json.obj [])] : List (String × String × Json)).length ∧
      dispatchCalls true
        [("id1", "bash", Json.obj []), ("id2", "read_file", Json.obj [])] = [] :=
  ⟨by decide,
    (dispatchTools_cancelled_spec (fun _ _ => ToolOutcome.ok "out")
      [("id1", "bash", Json.obj []), ("id2", "read_file", Json.obj [])]
      (by decide)).2⟩

/-!
## src/stream.rs: the stream reducer

The reducer is modelled as a fold over the list of events the decoder
produced before returning `None` (end of stream); `sigAtEnd` is the
value of the cancellation flag observed at end of stream.  Terminal
echo, the thinking timer and the two line-layout booleans of the text
accumulator are display-only side effects with no bearing on the
result and are not modelled.  JSON parsing of accumulated tool input
(`serde_json::from_str`) is supplied as an oracle `parse`. -/

/-- `StopReason` from src/types.rs. -/
inductive StopReason : Type where
  | endTurn : StopReason
  | maxTokens : StopReason
  | stopSequence : StopReason
  | toolUse : StopReason
deriving DecidableEq

/-- `Usage` from src/types.rs. -/
structure Usage : Type where
  input_tokens : Nat := 0
  output_tokens : Nat := 0
  cache_creation_input_tokens : Nat := 0
  cache_read_input_tokens : Nat := 0
deriving DecidableEq

/-- `BlockStart` from src/sse.rs. -/
inductive BlockStart : Type where
  | thinking : BlockStart
  | text : BlockStart
  | toolUse (id : String) (name : String) : BlockStart
deriving DecidableEq

/-- `Delta` from src/sse.rs. -/
inductive Delta : Type where
  | thinking (s : String) : Delta
  | signature (s : String) : Delta
  | text (s : String) : Delta
  | inputJson (s : String) : Delta
deriving DecidableEq

/-- `SseEvent` from src/sse.rs. -/
inductive SseEvent : Type where
  | messageStart (input_tokens cache_creation cache_read : Nat) : SseEvent
  | contentBlockStart (index : Nat) (block : BlockStart) : SseEvent
  | contentBlockDelta (index : Nat) (delta : Delta) : SseEvent
  | contentBlockStop (index : Nat) : SseEvent
  | messageDelta (stop : StopReason) (output_tokens : Nat) : SseEvent
  | messageStop : SseEvent
  | ping : SseEvent
deriving DecidableEq

/-- `BlockState` from src/stream.rs (the two line-layout booleans of
the text accumulator only drive terminal echo and are omitted). -/
inductive BlockState : Type where
  | idle : BlockState
  | thinking (thinking : String) (signature : String) : BlockState
  | text (buf : String) : BlockState
  | toolUse (id : String) (name : String) (json : String) : BlockState
deriving DecidableEq

/-- The mutable loop state of `stream_response` (src/stream.rs). -/
structure StreamState : Type where
  content : List ContentBlock
  usage : Usage
  stop_reason : StopReason
  block : BlockState
deriving DecidableEq

/-- `StreamResult` from src/stream.rs. -/
structure StreamResult : Type where
  content : List ContentBlock
  stop_reason : StopReason
  usage : Usage
  interrupted : Bool
deriving DecidableEq

/-- The initial loop state of `stream_response`. -/
def initStreamState : StreamState :=
  { content := [], usage := {}, stop_reason := .endTurn, block := .idle }

/-- One iteration of the event match in `stream_response`
(src/stream.rs), for events other than message-stop. -/
def stepEvent (parse : String → Option Json) (st : StreamState) :
    SseEvent → StreamState
  | .messageStart it cc cr =>
      { st with
        usage :=
          { st.usage with
            input_tokens := it
            cache_creation_input_tokens := cc
            cache_read_input_tokens := cr } }
  | .contentBlockStart _ start =>
      { st with block :=
          match start with
          | .thinking => BlockState.thinking "" ""
          | .text => BlockState.text ""
          | .toolUse id name => BlockState.toolUse id name "" }
  | .contentBlockDelta _ d =>
      { st with block :=
          match st.block, d with
          | BlockState.thinking t sgn, Delta.thinking s =>
              BlockState.thinking (t ++ s) sgn
          | BlockState.thinking t sgn, Delta.signature s =>
              BlockState.thinking t (sgn ++ s)
          | BlockState.text buf, Delta.text s => BlockState.text (buf ++ s)
          | BlockState.toolUse id name json, Delta.inputJson s =>
              BlockState.toolUse id name (json ++ s)
          | b, _ => b }
  | .contentBlockStop _ =>
      match st.block with
      | BlockState.thinking t sgn =>
          { st with
            content := st.content ++ [ContentBlock.thinking t sgn]
            block := .idle }
      | BlockState.text buf =>
          { st with
            content := st.content ++ [ContentBlock.text buf]
            block := .idle }
      | BlockState.toolUse id name json =>
          { st with
            content := st.content ++
              [ContentBlock.toolUse id name ((parse json).getD (Json.obj []))]
            block := .idle }
      | BlockState.idle => st
  | .messageDelta reason tokens =>
      { st with
        stop_reason := reason
        usage := { st.usage with output_tokens := tokens } }
  | .messageStop => st
  | .ping => st

/-- The end-of-stream handling of `stream_response` (the `None` arm):
if the cancellation flag is set, mark the result interrupted and flush
a nonempty partially accumulated text block; otherwise return what was
finished. -/
def finalizeStream (st : StreamState) (sig : Bool) : StreamResult :=
  if sig then
    match st.block with
    | BlockState.text buf =>
        if buf ≠ "" then
          ⟨st.content ++ [ContentBlock.text buf], st.stop_reason, st.usage, true⟩
        else ⟨st.content, st.stop_reason, st.usage, true⟩
    | _ => ⟨st.content, st.stop_reason, st.usage, true⟩
  else ⟨st.content, st.stop_reason, st.usage, false⟩

/-- The event loop of `stream_response`: events are consumed in order;
a message-stop event breaks immediately (no flush); end of the event
list is end of stream. -/
def streamLoop (parse : String → Option Json) (sigAtEnd : Bool) :
    StreamState → List SseEvent → StreamResult
  | st, [] => finalizeStream st sigAtEnd
  | st, e :: rest =>
      match e with
      | .messageStop => ⟨st.content, st.stop_reason, st.usage, false⟩
      | _ => streamLoop parse sigAtEnd (stepEvent parse st e) rest

/-- `stream_response` from src/stream.rs, as a function of the decoded
event sequence and the cancellation flag at end of stream. -/
def stream_response (parse : String → Option Json) (events : List SseEvent)
    (sigAtEnd : Bool) : StreamResult :=
  streamLoop parse sigAtEnd initStreamState events

/-- The loop state after consuming all of `events`. -/
def foldState (parse : String → Option Json) (events : List SseEvent) :
    StreamState :=
  events.foldl (stepEvent parse) initStreamState

theorem streamLoop_no_stop (parse : String → Option Json) (b : Bool)
    (events : List SseEvent) (hstop : SseEvent.messageStop ∉ events) :
    ∀ st, streamLoop parse b st events =
      finalizeStream (events.foldl (stepEvent parse) st) b := by
  induction events with
  | nil => intro st; rfl
  | cons e rest ih =>
    intro st
    have hne : e ≠ SseEvent.messageStop := by
      intro h; exact hstop (by simp [h])
    have hrest : SseEvent.messageStop ∉ rest := by
      intro h; exact hstop (by simp [h])
    cases e with
    | messageStop => exact absurd rfl hne
    | messageStart it cc cr => simpa [streamLoop] using ih hrest _
    | contentBlockStart i blk => simpa [streamLoop] using ih hrest _
    | contentBlockDelta i d => simpa [streamLoop] using ih hrest _
    | contentBlockStop i => simpa [streamLoop] using ih hrest _
    | messageDelta r t => simpa [streamLoop] using ih hrest _
    | ping => simpa [streamLoop] using ih hrest _

/-- C7: if the decoded event sequence ends by interruption (the
cancellation flag observed at end of stream) while a text block is
being accumulated with nonempty partial text, the reducer still emits
the partially accumulated text block at the end of the finished
content and sets the interrupted flag. -/
theorem stream_partial_text_spec (parse : String → Option Json)
    (events : List SseEvent) (buf : String)
    (hstop : SseEvent.messageStop ∉ events)
    (hbuf : (foldState parse events).block = BlockState.text buf)
    (hne : buf ≠ "") :
    (stream_response parse events true).interrupted = true ∧
    (stream_response parse events true).content =
      (foldState parse events).content ++ [ContentBlock.text buf] := by
  have h := streamLoop_no_stop parse true events hstop initStreamState
  have hres : stream_response parse events true =
      finalizeStream (foldState parse events) true := h
  rw [hres, finalizeStream, hbuf]
  simp [hne]

/-- C7 witness: a stream interrupted after a text-block start and one
text delta still emits the partial text "hi" and reports interruption. -/
theorem stream_partial_text_spec_witness :
    SseEvent.messageStop ∉
        [SseEvent.contentBlockStart 0 BlockStart.text,
         SseEvent.contentBlockDelta 0 (Delta.text "hi")] ∧
      (stream_response (fun _ => none)
        [SseEvent.contentBlockStart 0 BlockStart.text,
         SseEvent.contentBlockDelta 0 (Delta.text "hi")] true).interrupted =
        true :=
  ⟨by decide,
    (stream_partial_text_spec (fun _ => none)
      [SseEvent.contentBlockStart 0 BlockStart.text,
       SseEvent.contentBlockDelta 0 (Delta.text "hi")] "hi"
      (by decide) (by decide) (by decide)).1⟩

/-!
## src/sse.rs: event framing in `SseReader::next_event`

The byte stream is modelled as the list of lines `read_line` yields,
already stripped of their trailing newline/carriage-return (the
`trim_end_matches` in the source); end of the list is EOF.  The
framing loop accumulates an event type and a payload and dispatches at
a blank line; the subsequent `parse_event` step consumes the framed
`(event_type, data)` pair. -/

/-- Rust `str::strip_prefix`, modelled on the underlying char lists. -/
def stripPfx (p s : String) : Option String :=
  if p.data.isPrefixOf s.data then
    some (String.mk (s.data.drop p.data.length))
  else none

/-- Processing of one non-blank line in `next_event` (src/sse.rs): an
`event: ` line replaces the event type, a `data: ` line appends its
value to the payload (joined with a newline), any other line is
ignored. -/
def accLine (st : String × String) (line : String) : String × String :=
  match stripPfx "event: " line with
  | some v => (v, st.2)
  | none =>
      match stripPfx "data: " line with
      | some v => (st.1, if st.2 = "" then v else st.2 ++ "\n" ++ v)
      | none => st

/-- The framing loop of `SseReader::next_event` (src/sse.rs), carrying
the accumulated event type and payload: returns the framed
`(event_type, data)` pair handed to `parse_event` together with the
remaining lines, or `none` at EOF. -/
def nextEventFrame : List String → String → String →
    Option ((String × String) × List String)
  | [], _, _ => none
  | line :: rest, etype, data =>
      if line = "" then
        if data = "" then nextEventFrame rest etype data
        else some ((etype, data), rest)
      else
        nextEventFrame rest (accLine (etype, data) line).1
          (accLine (etype, data) line).2

theorem data_mk (s : String) : String.mk s.data = s := rfl

theorem stripPfx_self_append (p v : String) :
    stripPfx p (p ++ v) = some v := by
  unfold stripPfx
  have h1 : p.data.isPrefixOf (p ++ v).data := by
    rw [String.data_append]
    exact List.isPrefixOf_iff_prefix.mpr (List.prefix_append _ _)
  rw [if_pos h1, String.data_append, List.drop_left]

theorem stripPfx_event_of_data (v : String) :
    stripPfx "event: " ("data: " ++ v) = none := by
  unfold stripPfx
  rw [if_neg]
  intro h
  rw [String.data_append] at h
  have h2 := List.isPrefixOf_iff_prefix.mp h
  rcases h2 with ⟨t, ht⟩
  have := congrArg (fun l => l.get? 0) ht
  simp at this

theorem nextEventFrame_cons_blank (rest : List String) (etype data : String) :
    nextEventFrame ("" :: rest) etype data =
      if data = "" then nextEventFrame rest etype data
      else some ((etype, data), rest) := by
  rw [nextEventFrame]
  simp

theorem nextEventFrame_cons_line {line : String} (h : line ≠ "")
    (rest : List String) (etype data : String) :
    nextEventFrame (line :: rest) etype data =
      nextEventFrame rest (accLine (etype, data) line).1
        (accLine (etype, data) line).2 := by
  rw [nextEventFrame]
  simp [h]

theorem nextEventFrame_accum (pre : List String)
    (hpre : ∀ l ∈ pre, l ≠ "") :
    ∀ rest etype data,
      nextEventFrame (pre ++ "" :: rest) etype data =
        (if (pre.foldl accLine (etype, data)).2 = "" then
          nextEventFrame rest (pre.foldl accLine (etype, data)).1
            (pre.foldl accLine (etype, data)).2
        else some (pre.foldl accLine (etype, data), rest)) := by
  induction pre with
  | nil =>
    intro rest etype data
    simp only [List.nil_append, List.foldl_nil, nextEventFrame_cons_blank]
  | cons l pre ih =>
    intro rest etype data
    have hl : l ≠ "" := hpre l (by simp)
    have hpre' : ∀ x ∈ pre, x ≠ "" := fun x hx => hpre x (by simp [hx])
    rw [List.cons_append, nextEventFrame_cons_line hl, ih hpre',
      List.foldl_cons]

/-- C8 (amended): consecutive non-blank lines accumulate one event —
an `event: ` line sets the type name, each `data: ` line contributes
its value to the payload with multiple values joined by a newline,
lines with any other prefix are ignored — and the first blank line
after this accumulation dispatches exactly that one fully-buffered
event, PROVIDED the accumulated payload is nonempty; a blank line with
an empty accumulated payload dispatches nothing and the reader keeps
scanning (the original claim required dispatch at the first blank line
unconditionally). -/
theorem sse_next_event_frame_spec (pre rest : List String)
    (hpre : ∀ l ∈ pre, l ≠ "")
    (hdata : (pre.foldl accLine ("", "")).2 ≠ "") :
    nextEventFrame (pre ++ "" :: rest) "" "" =
      some (pre.foldl accLine ("", ""), rest) ∧
    (∀ st v, accLine st ("event: " ++ v) = (v, st.2)) ∧
    (∀ st v, accLine st ("data: " ++ v) =
      (st.1, if st.2 = "" then v else st.2 ++ "\n" ++ v)) ∧
    (∀ st l, stripPfx "event: " l = none → stripPfx "data: " l = none →
      accLine st l = st) := by
  refine ⟨?_, ?_, ?_, ?_⟩
  · rw [nextEventFrame_accum pre hpre rest "" "", if_neg hdata]
  · intro st v
    simp [accLine, stripPfx_self_append]
  · intro st v
    simp [accLine, stripPfx_event_of_data, stripPfx_self_append]
  · intro st l h1 h2
    simp [accLine, h1, h2]

/-- C8 counterexample to the original claim: after accumulating the
single line `event: ping`, the following blank line does not dispatch
the buffered event — with no payload gathered, the reader skips the
blank line and runs into EOF, returning no event at all. -/
theorem sse_frame_no_payload_counterexample :
    nextEventFrame ["event: ping", ""] "" "" = none := by
  rfl

/-- C8 witness: an `event: ` line and two `data: ` lines followed by a
blank line dispatch one event with the newline-joined payload. -/
theorem sse_next_event_frame_spec_witness :
    (∀ l ∈ (["event: ping", "data: {}", "data: x"] : List String), l ≠ "") ∧
      nextEventFrame
        (["event: ping", "data: {}", "data: x"] ++ "" :: ["tail"]) "" "" =
        some ((["event: ping", "data: {}", "data: x"] : List String).foldl
          accLine ("", ""), ["tail"]) :=
  ⟨by decide,
    (sse_next_event_frame_spec ["event: ping", "data: {}", "data: x"]
      ["tail"] (by decide) (by decide)).1⟩

/-!
## src/types.rs: serde round-trip of the transcript line format

`serde_json::to_string` / `from_str` factor through the JSON value
model: serialization and deserialization are modelled at the level of
`Json` values, following the serde attributes on the types —
`Role` renames, `Content` untagged (string first, then block list),
`ContentBlock` internally tagged by `type` with the renamed tags,
`signature` skipped when empty and defaulted when absent, `is_error`
skipped when `None` and optional on input.  (The concrete text layer
is serde_json's own value/text round-trip.) -/

/-- Serialization of `Role` (serde rename to lowercase). -/
def Role.toJson : Role → Json
  | .user => .str "user"
  | .assistant => .str "assistant"

/-- Deserialization of `Role`. -/
def Role.fromJson : Json → Option Role
  | .str s =>
      if s = "user" then some .user
      else if s = "assistant" then some .assistant
      else none
  | _ => none

/-- Field lookup in a JSON object (serde allows and ignores unknown
fields; a missing required field is an error). -/
def Json.getField (j : Json) (k : String) : Option Json :=
  match j with
  | .obj fs => fs.lookup k
  | _ => none

/-- Serialization of one `ContentBlock` (internally tagged by `type`;
`signature` omitted when empty, `is_error` omitted when `None`). -/
def ContentBlock.toJson : ContentBlock → Json
  | .thinking t sgn =>
      .obj ([("type", .str "thinking"), ("thinking", .str t)] ++
        if sgn = "" then [] else [("signature", .str sgn)])
  | .text t => .obj [("type", .str "text"), ("text", .str t)]
  | .toolUse id name input =>
      .obj [("type", .str "tool_use"), ("id", .str id),
        ("name", .str name), ("input", input)]
  | .toolResult id content ie =>
      .obj ([("type", .str "tool_result"), ("tool_use_id", .str id),
        ("content", .str content)] ++
        match ie with
        | none => []
        | some b => [("is_error", .bool b)])

/-- Deserialization of one `ContentBlock`: branch on the `type` tag;
`signature` defaults to the empty string when absent, `is_error` is
`None` when absent or `null`. -/
def ContentBlock.fromJson (j : Json) : Option ContentBlock :=
  match j.getField "type" with
  | some (.str tag) =>
      if tag = "thinking" then
        match j.getField "thinking" with
        | some (.str t) =>
            match j.getField "signature" with
            | some (.str sgn) => some (.thinking t sgn)
            | some _ => none
            | none => some (.thinking t "")
        | _ => none
      else if tag = "text" then
        match j.getField "text" with
        | some (.str t) => some (.text t)
        | _ => none
      else if tag = "tool_use" then
        match j.getField "id", j.getField "name", j.getField "input" with
        | some (.str id), some (.str name), some input =>
            some (.toolUse id name input)
        | _, _, _ => none
      else if tag = "tool_result" then
        match j.getField "tool_use_id", j.getField "content" with
        | some (.str id), some (.str c) =>
            match j.getField "is_error" with
            | some (.bool b) => some (.toolResult id c (some b))
            | some .null => some (.toolResult id c none)
            | some _ => none
            | none => some (.toolResult id c none)
        | _, _ => none
      else none
  | _ => none

/-- Serialization of `Content` (serde untagged). -/
def Content.toJson : Content → Json
  | .text s => .str s
  | .blocks bs => .arr (bs.map ContentBlock.toJson)

/-- Deserialization of a block list, failing if any element fails. -/
def ContentBlock.listFromJson : List Json → Option (List ContentBlock)
  | [] => some []
  | j :: rest =>
      match ContentBlock.fromJson j, ContentBlock.listFromJson rest with
      | some b, some bs => some (b :: bs)
      | _, _ => none

/-- Deserialization of `Content` (serde untagged, variants tried in
declaration order: a JSON string is plain text, a JSON array is a
block list). -/
def Content.fromJson : Json → Option Content
  | .str s => some (.text s)
  | .arr js => (ContentBlock.listFromJson js).map Content.blocks
  | _ => none

/-- Serialization of a `Message`. -/
def Message.toJson (m : Message) : Json :=
  .obj [("role", m.role.toJson), ("content", m.content.toJson)]

/-- Deserialization of a `Message`. -/
def Message.fromJson (j : Json) : Option Message :=
  match j.getField "role", j.getField "content" with
  | some r, some c =>
      match Role.fromJson r, Content.fromJson c with
      | some role, some content => some ⟨role, content⟩
      | _, _ => none
  | _, _ => none

theorem role_roundtrip (r : Role) : Role.fromJson r.toJson = some r := by
  cases r <;> rfl

theorem contentBlock_roundtrip (b : ContentBlock) :
    ContentBlock.fromJson b.toJson = some b := by
  cases b with
  | thinking t sgn =>
      by_cases hs : sgn = ""
      · subst hs
        rfl
      · simp only [ContentBlock.toJson, if_neg hs]
        rfl
  | text t => rfl
  | toolUse id name input => rfl
  | toolResult id content ie =>
      cases ie with
      | none => rfl
      | some b => rfl

theorem contentBlock_list_roundtrip (bs : List ContentBlock) :
    ContentBlock.listFromJson (bs.map ContentBlock.toJson) = some bs := by
  induction bs with
  | nil => rfl
  | cons b rest ih =>
    simp only [List.map_cons, ContentBlock.listFromJson,
      contentBlock_roundtrip b, ih]

theorem content_roundtrip (c : Content) :
    Content.fromJson c.toJson = some c := by
  cases c with
  | text s => rfl
  | blocks bs =>
    simp only [Content.toJson, Content.fromJson,
      contentBlock_list_roundtrip bs]
    rfl

/-- C9: serializing any `Message` — either role, content a plain
string or any block sequence over all `ContentBlock` variants
(`Thinking` with or without signature, `Text`, `ToolUse` with
arbitrary JSON input, `ToolResult` with or without the error flag) —
and parsing it back yields the original `Message`. -/
theorem message_roundtrip (m : Message) :
    Message.fromJson m.toJson = some m := by
  obtain ⟨role, content⟩ := m
  show (match Role.fromJson role.toJson, Content.fromJson content.toJson with
    | some role, some content => some (Message.mk role content)
    | _, _ => none) = some (Message.mk role content)
  rw [role_roundtrip, content_roundtrip]

/-!
## src/agent.rs: the tool-use/tool-result pairing invariant

The turn loop of `run_session` is modelled as a step function on the
in-memory history.  One step is either (a) `command::read_input`
appending a plain-text user message, (b) one loop iteration handling
a streamed result — skipping an empty interrupted response, otherwise
appending the assistant message and, exactly when the turn was not
interrupted and stopped with tool-use, the tool-results user message —
or (c) a compaction pass.  The cancellation flag observed by each
worker and the external collaborator outcome are oracles, so the step
covers every interleaving of dispatch with interruption. -/

/-- The `tool_calls` extraction of run_session (src/agent.rs): the
(id, name, input) of every ToolUse block, in order. -/
def toolCalls (bs : List ContentBlock) : List (String × String × Json) :=
  bs.filterMap fun b =>
    match b with
    | .toolUse id name input => some (id, name, input)
    | _ => none

/-- The call ids of the ToolUse blocks of a block list, in order. -/
def toolUseIds (bs : List ContentBlock) : List String :=
  bs.filterMap fun b =>
    match b with
    | .toolUse id _ _ => some id
    | _ => none

/-- The call ids of the ToolResult blocks of a block list, in order. -/
def toolResultIds (bs : List ContentBlock) : List String :=
  bs.filterMap fun b =>
    match b with
    | .toolResult id _ _ => some id
    | _ => none

/-- Tool dispatch with a per-worker cancellation-flag oracle (the flag
can be set between worker starts): the `k`-th worker observes
`sigAt k`. -/
def dispatchToolsAt : (Nat → Bool) → (String → Json → ToolOutcome) →
    List (String × String × Json) → List ContentBlock
  | _, _, [] => []
  | sigAt, exec, c :: rest =>
      toolWorker (sigAt 0) exec c ::
        dispatchToolsAt (fun k => sigAt (k + 1)) exec rest

/-- One engine operation on the history, per `run_session`
(src/agent.rs): user input, one streamed turn (with the worker
cancellation and collaborator outcomes as oracles), or compaction. -/
inductive EngineAction : Type where
  | userInput (s : String) : EngineAction
  | turn (content : List ContentBlock) (interrupted : Bool)
      (stop : StopReason) (sigAt : Nat → Bool)
      (exec : String → Json → ToolOutcome) : EngineAction
  | compaction (input_tokens : Nat) (summary : String) : EngineAction

/-- The effect of one engine operation on the in-memory history,
mirroring the corresponding branches of `run_session` and `compact`
(src/agent.rs). -/
def applyAction (H : List Message) : EngineAction → List Message
  | .userInput s => H ++ [⟨Role.user, Content.text s⟩]
  | .turn content interrupted stop sigAt exec =>
      if interrupted = true ∧ content = [] then H
      else
        let H1 := H ++ [⟨Role.assistant, Content.blocks content⟩]
        if interrupted = false ∧ stop = StopReason.toolUse then
          H1 ++ [⟨Role.user,
            Content.blocks (dispatchToolsAt sigAt exec (toolCalls content))⟩]
        else H1
  | .compaction t summary => compact H t summary

/-- The pairing invariant: every Assistant message holding ToolUse
blocks is immediately followed by a User message whose ToolResult
blocks carry exactly the same call ids, in order (one result per
call). -/
def answered (H : List Message) : Prop :=
  ∀ i bs, H.get? i = some ⟨Role.assistant, Content.blocks bs⟩ →
    toolUseIds bs ≠ [] →
    ∃ rs, H.get? (i + 1) = some ⟨Role.user, Content.blocks rs⟩ ∧
      toolResultIds rs = toolUseIds bs

/-- The amended side condition: a turn whose streamed content contains
ToolUse blocks must have completed uninterrupted with stop reason
tool-use (so that its results are dispatched and appended). -/
def ActionSafe : EngineAction → Prop
  | .turn content interrupted stop _ _ =>
      toolUseIds content ≠ [] →
        interrupted = false ∧ stop = StopReason.toolUse
  | _ => True

theorem resultId_toolWorker (sig : Bool)
    (exec : String → Json → ToolOutcome) (c : String × String × Json) :
    ∃ out ie, toolWorker sig exec c = ContentBlock.toolResult c.1 out ie := by
  unfold toolWorker
  cases sig with
  | true => exact ⟨_, _, rfl⟩
  | false =>
    cases exec c.2.1 c.2.2 with
    | ok out => exact ⟨_, _, rfl⟩
    | err msg => exact ⟨_, _, rfl⟩

theorem toolResultIds_dispatchToolsAt (sigAt : Nat → Bool)
    (exec : String → Json → ToolOutcome)
    (calls : List (String × String × Json)) :
    toolResultIds (dispatchToolsAt sigAt exec calls) =
      calls.map (fun c => c.1) := by
  induction calls generalizing sigAt with
  | nil => rfl
  | cons c rest ih =>
    obtain ⟨out, ie, hw⟩ := resultId_toolWorker (sigAt 0) exec c
    simp only [dispatchToolsAt, toolResultIds, List.filterMap_cons, hw]
    exact congrArg (c.1 :: ·) (ih _)

theorem toolUseIds_eq_calls_map (bs : List ContentBlock) :
    toolUseIds bs = (toolCalls bs).map (fun c => c.1) := by
  induction bs with
  | nil => rfl
  | cons b rest ih =>
    cases b <;> simp [toolUseIds, toolCalls, List.filterMap_cons, ih] <;>
      simpa [toolUseIds, toolCalls] using ih

theorem get?_append_mid {α : Type} (H L : List α) (j : Nat) :
    (H ++ L).get? (H.length + j) = L.get? j := by
  rw [List.get?_eq_getElem?, List.get?_eq_getElem?,
    List.getElem?_append_right (by omega)]
  congr 1
  omega

theorem get?_append_none {α : Type} (H L : List α) (i : Nat)
    (h : H.length + L.length ≤ i) : (H ++ L).get? i = none := by
  rw [List.get?_eq_getElem?, List.getElem?_eq_none]
  simp
  omega

theorem answered_append_one (H : List Message) (m : Message)
    (hH : answered H)
    (hm : ∀ bs, m = Message.mk Role.assistant (Content.blocks bs) →
      toolUseIds bs = []) :
    answered (H ++ [m]) := by
  intro i bs hi hne
  rcases Nat.lt_trichotomy i H.length with hlt | heq | hgt
  · have hi' : H.get? i = some (Message.mk Role.assistant (Content.blocks bs)) := by
      rw [List.get?_eq_getElem?] at hi ⊢
      rwa [List.getElem?_append_left hlt] at hi
    obtain ⟨rs, hrs, hids⟩ := hH i bs hi' hne
    have hlen : i + 1 < H.length := by
      by_contra hc
      rw [List.get?_eq_getElem?, List.getElem?_eq_none (by omega)] at hrs
      exact Option.noConfusion hrs
    refine ⟨rs, ?_, hids⟩
    rw [List.get?_eq_getElem?, List.getElem?_append_left hlen,
      ← List.get?_eq_getElem?]
    exact hrs
  · subst heq
    rw [show H.length = H.length + 0 by rfl, get?_append_mid] at hi
    simp only [List.get?] at hi
    injection hi with h
    exact absurd (hm bs h) hne
  · exfalso
    have hi0 : (H ++ [m]).get? i = none :=
      get?_append_none H [m] i (by simp; omega)
    rw [hi0] at hi
    exact Option.noConfusion hi

theorem answered_append_turn (H : List Message)
    (content results : List ContentBlock)
    (hres : toolResultIds results = toolUseIds content)
    (hH : answered H) :
    answered (H ++ [Message.mk Role.assistant (Content.blocks content),
      Message.mk Role.user (Content.blocks results)]) := by
  intro i bs hi hne
  rcases Nat.lt_trichotomy i H.length with hlt | heq | hgt
  · have hi' : H.get? i = some (Message.mk Role.assistant (Content.blocks bs)) := by
      rw [List.get?_eq_getElem?] at hi ⊢
      rwa [List.getElem?_append_left hlt] at hi
    obtain ⟨rs, hrs, hids⟩ := hH i bs hi' hne
    have hlen : i + 1 < H.length := by
      by_contra hc
      rw [List.get?_eq_getElem?, List.getElem?_eq_none (by omega)] at hrs
      exact Option.noConfusion hrs
    refine ⟨rs, ?_, hids⟩
    rw [List.get?_eq_getElem?, List.getElem?_append_left hlen,
      ← List.get?_eq_getElem?]
    exact hrs
  · subst heq
    rw [show H.length = H.length + 0 by rfl, get?_append_mid] at hi
    simp only [List.get?] at hi
    injection hi with h
    injection h with h1 h2
    injection h2 with h3
    subst h3
    refine ⟨results, ?_, hres⟩
    rw [show H.length + 0 + 1 = H.length + 1 by rfl, get?_append_mid]
    rfl
  · rcases Nat.lt_or_ge i (H.length + 2) with hlt2 | hge2
    · exfalso
      have hieq : i = H.length + 1 := by omega
      subst hieq
      rw [get?_append_mid] at hi
      simp only [List.get?] at hi
      injection hi with h
      injection h with h1 h2
      exact Role.noConfusion h1
    · exfalso
      have hi0 := get?_append_none H
        [Message.mk Role.assistant (Content.blocks content),
          Message.mk Role.user (Content.blocks results)] i (by simp; omega)
      rw [hi0] at hi
      exact Option.noConfusion hi

theorem answered_cons_text (r : Role) (s : String) (L : List Message)
    (hL : answered L) : answered (⟨r, Content.text s⟩ :: L) := by
  intro i bs hi hne
  cases i with
  | zero =>
    exfalso
    simp only [List.get?] at hi
    injection hi with h
    injection h with h1 h2
    exact Content.noConfusion h2
  | succ i =>
    obtain ⟨rs, hrs, hids⟩ := hL i bs (by simpa using hi) hne
    exact ⟨rs, by simpa using hrs, hids⟩

theorem answered_drop (H : List Message) (k : Nat) (hH : answered H) :
    answered (H.drop k) := by
  intro i bs hi hne
  rw [List.get?_eq_getElem?, List.getElem?_drop] at hi
  obtain ⟨rs, hrs, hids⟩ := hH (k + i) bs (by rwa [List.get?_eq_getElem?]) hne
  refine ⟨rs, ?_, hids⟩
  rw [List.get?_eq_getElem?, List.getElem?_drop,
    show k + (i + 1) = k + i + 1 by omega, ← List.get?_eq_getElem?]
  exact hrs

/-- C2 (amended): the engine preserves the tool-use/tool-result
pairing invariant across user input, streamed turns and compaction,
PROVIDED every turn whose streamed content contains ToolUse blocks
completes uninterrupted with stop reason tool-use.  (Without that
proviso the claim fails: an interrupted turn appends an assistant
message containing ToolUse blocks and dispatches nothing, leaving the
calls unanswered — see the counterexample.)  Dispatched results pair
ids one-to-one in call order, and a compaction cut never separates a
ToolUse from its ToolResult. -/
theorem engine_pairing_invariant (H : List Message) (a : EngineAction)
    (hH : answered H) (hsafe : ActionSafe a) :
    answered (applyAction H a) := by
  cases a with
  | userInput s =>
    refine answered_append_one H _ hH ?_
    intro bs h
    exact absurd (congrArg Message.role h) (by simp)
  | turn content interrupted stop sigAt exec =>
    show answered (if interrupted = true ∧ content = [] then H else _)
    by_cases h1 : interrupted = true ∧ content = []
    · rwa [if_pos h1]
    · rw [if_neg h1]
      by_cases h2 : interrupted = false ∧ stop = StopReason.toolUse
      · rw [if_pos h2]
        have hres := toolResultIds_dispatchToolsAt sigAt exec
          (toolCalls content)
        rw [← toolUseIds_eq_calls_map] at hres
        have := answered_append_turn H content _ hres hH
        simpa [List.append_assoc] using this
      · rw [if_neg h2]
        have hempty : toolUseIds content = [] := by
          by_contra hne
          exact h2 (hsafe hne)
        refine answered_append_one H _ hH ?_
        intro bs h
        have : bs = content := by
          injection h with h1 h2
          injection h2 with h3
          exact h3.symm
        rw [this]
        exact hempty
  | compaction t summary =>
    show answered (compact H t summary)
    unfold compact
    by_cases hcut : find_cut_point H t = 0
    · simpa [hcut] using hH
    · rw [if_neg (by simpa using hcut)]
      exact answered_cons_text _ _ _
        (answered_cons_text _ _ _ (answered_drop H _ hH))

/-- C2 counterexample to the original claim: from the paired history
holding one plain-text user message, a turn interrupted after
streaming a complete ToolUse block appends the assistant message but
dispatches no results, leaving the ToolUse unanswered. -/
theorem engine_pairing_counterexample :
    answered [⟨Role.user, Content.text "hi"⟩] ∧
    applyAction [⟨Role.user, Content.text "hi"⟩]
        (EngineAction.turn [ContentBlock.toolUse "t1" "bash" (Json.obj [])]
          true StopReason.endTurn (fun _ => false)
          (fun _ _ => ToolOutcome.ok "")) =
      [⟨Role.user, Content.text "hi"⟩,
        ⟨Role.assistant,
          Content.blocks [ContentBlock.toolUse "t1" "bash" (Json.obj [])]⟩] ∧
    ¬ answered [⟨Role.user, Content.text "hi"⟩,
        ⟨Role.assistant,
          Content.blocks [ContentBlock.toolUse "t1" "bash" (Json.obj [])]⟩] := by
  refine ⟨?_, ?_, ?_⟩
  · intro i bs hi hne
    exfalso
    cases i with
    | zero =>
      simp only [List.get?] at hi
      injection hi with h
      injection h with h1 h2
      exact Role.noConfusion h1
    | succ i =>
      cases i <;> simp [List.get?] at hi
  · rfl
  · intro h
    obtain ⟨rs, hrs, _⟩ := h 1 [ContentBlock.toolUse "t1" "bash" (Json.obj [])]
      rfl (by simp [toolUseIds])
    simp [List.get?] at hrs

/-- Helper for the C2 witness: a single plain-text user message is a
paired history. -/
theorem answered_user_text_single (s : String) :
    answered [⟨Role.user, Content.text s⟩] := by
  intro i bs hi hne
  exfalso
  cases i with
  | zero =>
    simp only [List.get?] at hi
    injection hi with h
    injection h with h1 h2
    exact Role.noConfusion h1
  | succ i =>
    cases i <;> simp [List.get?] at hi

/-- C2 witness: the amended theorem applied to a concrete uninterrupted
tool-use turn from a paired one-message history. -/
theorem engine_pairing_invariant_witness :
    answered (applyAction [⟨Role.user, Content.text "hi"⟩]
      (EngineAction.turn [ContentBlock.toolUse "t1" "bash" (Json.obj [])]
        false StopReason.toolUse (fun _ => false)
        (fun _ _ => ToolOutcome.ok "out"))) :=
  engine_pairing_invariant _ _ (answered_user_text_single "hi")
    (fun _ => ⟨rfl, rfl⟩)

end Tapir
